import Mathlib

set_option maxHeartbeats 1000000

/-!
Verification development for the Hillipop likelihood library (hillipop.py).

Shallow embedding conventions:
* Python floats are modelled as exact rationals (ℚ); `np.pi` is the exact
  rational value of the IEEE-754 double stored in `numpy.pi`.
* numpy arrays indexed by multipole are modelled as functions `ℕ → ℚ`.
* Python operations that can raise are modelled with `Option`/`Except`
  (`none`/`Except.error` standing for a raised exception).
* Python 2 integer division `/` on integers is `Nat.div`.
-/

/-- The IEEE-754 double value of `numpy.pi`, as an exact rational. -/
def npPi : ℚ := 884279719003555 / 281474976710656

/-- Python `list.index(x)`: index of the first occurrence of `x`;
`none` models the `ValueError` raised when `x` is absent. -/
def pyIndex {α : Type} [DecidableEq α] (x : α) : List α → Option ℕ
  | [] => none
  | y :: ys => if y = x then some 0 else (pyIndex x ys).map (· + 1)

/-- Python `min` over a nonempty list (`none` models the `ValueError`
raised by `min` on an empty sequence). -/
def pyMin : List ℤ → Option ℤ
  | [] => none
  | x :: xs => some (xs.foldl min x)

/-- Python `max` over a nonempty list (`none` models the `ValueError`
raised by `max` on an empty sequence). -/
def pyMax : List ℤ → Option ℤ
  | [] => none
  | x :: xs => some (xs.foldl max x)

def insertSorted (x : ℕ) : List ℕ → List ℕ
  | [] => [x]
  | y :: ys => if x ≤ y then x :: y :: ys else y :: insertSorted x ys

/-- `np.unique`: the sorted list of distinct values. -/
def npUnique (l : List ℕ) : List ℕ := (l.foldr insertSorted []).dedup

/-- The nuisance-parameter dictionary entries read by the likelihood:
`pars["Aplanck"]` and `pars["c%d" % m]`.  A total function models a
dictionary that contains every key the code looks up. -/
structure Params where
  Aplanck : ℚ
  c : ℕ → ℚ

/-- The `hillipop` object state after `__init__`: configuration fields and
the loaded data products.  Derived index tables (`nfreq`, `nxfreq`,
`nxspec`, `xspec2map`, `xspec2xfreq`) are recomputed from `nmap`/`fqs`
exactly as `_set_lists` builds them. -/
structure Hillipop where
  nmap : ℕ
  fqs : List ℕ
  isTT : Bool
  isEE : Bool
  isTE : Bool
  isET : Bool
  /-- `self.lmins[mode]`: per-mode multipole-range table (lower bounds). -/
  lmins : ℕ → List ℕ
  /-- `self.lmaxs[mode]`: per-mode multipole-range table (upper bounds). -/
  lmaxs : ℕ → List ℕ
  /-- `self.dldata[mode][xs][ℓ]`: loaded cross-spectra (Dl, µK²). -/
  dldata : ℕ → ℕ → ℕ → ℚ
  /-- `self.dlweight[mode][xs][ℓ]`: loaded inverse-variance weights. -/
  dlweight : ℕ → ℕ → ℕ → ℚ
  /-- `self.fgsTT`: each foreground model's `compute_dl(pars)`, one
  spectrum per cross-spectrum. -/
  fgsTT : List (Params → List (ℕ → ℚ))
  /-- `self.invkll`: the loaded inverse covariance matrix. -/
  invkll : ℕ → ℕ → ℚ

/-- `self.nfreq = len(np.unique(self.fqs))`. -/
def Hillipop.nfreq (s : Hillipop) : ℕ := (npUnique s.fqs).length

/-- `self.nxfreq = self.nfreq*(self.nfreq+1)/2`. -/
def Hillipop.nxfreq (s : Hillipop) : ℕ := s.nfreq * (s.nfreq + 1) / 2

/-- `self.nxspec = self.nmap*(self.nmap-1)/2`. -/
def Hillipop.nxspec (s : Hillipop) : ℕ := s.nmap * (s.nmap - 1) / 2

/-- The `xspec2map` loop of `_set_lists`: all pairs `(m1,m2)`, `m1<m2`,
in ascending order. -/
def xspec2mapF (nmap : ℕ) : List (ℕ × ℕ) :=
  (List.range nmap).flatMap fun m1 =>
    (List.range' (m1 + 1) (nmap - (m1 + 1))).map fun m2 => (m1, m2)

def Hillipop.xspec2map (s : Hillipop) : List (ℕ × ℕ) := xspec2mapF s.nmap

/-- The `list_fqs` loop of `_set_lists`: all pairs `(f1,f2)`, `f1≤f2`,
of frequency indices, in ascending order. -/
def list_fqs (nfreq : ℕ) : List (ℕ × ℕ) :=
  (List.range nfreq).flatMap fun f1 =>
    (List.range' f1 (nfreq - f1)).map fun f2 => (f1, f2)

/-- The `xspec2xfreq` loop of `_set_lists`.  The two `pyIndex` lookups are
`freqs.index(...)` and `list_fqs.index(...)`; `freqs.index` always
succeeds (the frequency is taken from `fqs` itself), and
`list_fqs.index` succeeds whenever `f1 ≤ f2` (in particular for all the
configurations considered here); `.getD 0` stands for the found index. -/
def Hillipop.xspec2xfreq (s : Hillipop) : List ℕ :=
  (List.range s.nmap).flatMap fun m1 =>
    (List.range' (m1 + 1) (s.nmap - (m1 + 1))).map fun m2 =>
      (pyIndex ((pyIndex (s.fqs.getD m1 0) (npUnique s.fqs)).getD 0,
                (pyIndex (s.fqs.getD m2 0) (npUnique s.fqs)).getD 0)
        (list_fqs s.nfreq)).getD 0

/-- The canonical cross-frequency ordering expressed as pairs of physical
frequencies (the `list_fqs` index pairs mapped through the sorted unique
frequency list). -/
def xfreqPairs (s : Hillipop) : List (ℕ × ℕ) :=
  (list_fqs s.nfreq).map fun p =>
    ((npUnique s.fqs).getD p.1 0, (npUnique s.fqs).getD p.2 0)

/-- Concrete configuration with three maps at 100, 143 and 217 GHz.
Data fields are irrelevant for the index-map claims. -/
def W4 : Hillipop where
  nmap := 3
  fqs := [100, 143, 217]
  isTT := true
  isEE := false
  isTE := false
  isET := false
  lmins := fun _ => [2, 2, 2, 2, 2, 2]
  lmaxs := fun _ => [4, 4, 4, 4, 4, 4]
  dldata := fun _ _ _ => 0
  dlweight := fun _ _ _ => 1
  fgsTT := []
  invkll := fun _ _ => 0

/-- C4: for nmap=3 with frequencies [100,143,217], the canonical
cross-frequency ordering is [(100,100),(100,143),(100,217),(143,143),
(143,217),(217,217)], the MapPairs are [(0,1),(0,2),(1,2)], and they map
to cross-frequency indices [1,2,4]. -/
theorem C4_index_maps :
    xfreqPairs W4 =
      [(100,100),(100,143),(100,217),(143,143),(143,217),(217,217)] ∧
    W4.xspec2map = [(0,1),(0,2),(1,2)] ∧
    W4.xspec2xfreq = [1,2,4] := by decide

/-!
## Cross-spectrum to cross-frequency averaging (`_xspectra_to_xfreq`)

The Python loop accumulates `weight[xs]*cl[xs]` into `xcl[x2x[xs]]` and
`weight[xs]` into `xw8[x2x[xs]]`, then replaces zero total weights by
infinity before dividing, so a zero-weight bucket yields `xcl/inf = 0`.
-/

/-- The accumulation loop of `_xspectra_to_xfreq`: the pair of arrays
`(xcl, xw8)` after the `for xs in range(nxspec)` loop. -/
def accumPair (x2x : List ℕ) (cl w : ℕ → ℕ → ℚ) (n : ℕ) :
    (ℕ → ℕ → ℚ) × (ℕ → ℕ → ℚ) :=
  (List.range n).foldl
    (fun acc xs =>
      (fun xf ℓ => if x2x.getD xs 0 = xf then acc.1 xf ℓ + w xs ℓ * cl xs ℓ
                   else acc.1 xf ℓ,
       fun xf ℓ => if x2x.getD xs 0 = xf then acc.2 xf ℓ + w xs ℓ
                   else acc.2 xf ℓ))
    (fun _ _ => 0, fun _ _ => 0)

/-- `_xspectra_to_xfreq`: weighted average of the cross-spectra sharing a
cross-frequency; a zero accumulated weight is replaced by an infinite
denominator, i.e. the result is 0 there. -/
def xspectra_to_xfreq (s : Hillipop) (cl w : ℕ → ℕ → ℚ) : ℕ → ℕ → ℚ :=
  fun xf ℓ =>
    let acc := accumPair s.xspec2xfreq cl w s.nxspec
    if acc.2 xf ℓ = 0 then 0 else acc.1 xf ℓ / acc.2 xf ℓ

/-- Total accumulated weight of a cross-frequency bucket, as a sum. -/
def weightTot (s : Hillipop) (w : ℕ → ℕ → ℚ) (xf ℓ : ℕ) : ℚ :=
  ∑ xs ∈ Finset.range s.nxspec,
    if s.xspec2xfreq.getD xs 0 = xf then w xs ℓ else 0

/-- Total accumulated weighted value of a cross-frequency bucket. -/
def weightedClTot (s : Hillipop) (cl w : ℕ → ℕ → ℚ) (xf ℓ : ℕ) : ℚ :=
  ∑ xs ∈ Finset.range s.nxspec,
    if s.xspec2xfreq.getD xs 0 = xf then w xs ℓ * cl xs ℓ else 0

/-!
## Nuisance calibration, theory conversion and the TT model
-/

/-- The Dl conversion of `compute_likelihood`/`_compute_residuals`:
`dlth = cl_boltz[:,lth] * (lth*(lth+1)/2./np.pi * 1e12)`. -/
def dlthOf (cl_boltz : ℕ → ℕ → ℚ) (m ℓ : ℕ) : ℚ :=
  cl_boltz m ℓ * (((ℓ : ℚ) * ((ℓ : ℚ) + 1)) / 2 / npPi * 10 ^ 12)

/-- The `cal` list built in `compute_likelihood`:
`Aplanck*Aplanck * (1.+c_m1) * (1.+c_m2)` for each map pair. -/
def calLik (nmap : ℕ) (p : Params) : List ℚ :=
  (List.range nmap).flatMap fun m1 =>
    (List.range' (m1 + 1) (nmap - (m1 + 1))).map fun m2 =>
      p.Aplanck * p.Aplanck * (1 + p.c m1) * (1 + p.c m2)

/-- The `cal` list built in `_compute_residuals`:
`Aplanck*Aplanck * (1.+ c_m1 + c_m2)` for each map pair. -/
def calRes (nmap : ℕ) (p : Params) : List ℚ :=
  (List.range nmap).flatMap fun m1 =>
    (List.range' (m1 + 1) (nmap - (m1 + 1))).map fun m2 =>
      p.Aplanck * p.Aplanck * (1 + p.c m1 + p.c m2)

/-- `dlmodel = [dlth[0]]*self.nxspec` followed by
`dlmodel += fg.compute_dl(pars)` for each TT foreground.  `dlmodel` is a
Python list, so `+=` with each foreground's sequence EXTENDS the list
(list.__iadd__), it does not add elementwise. -/
def dlmodelTT (s : Hillipop) (p : Params) (dlth0 : ℕ → ℚ) : List (ℕ → ℚ) :=
  s.fgsTT.foldl (fun acc fg => acc ++ fg p) (List.replicate s.nxspec dlth0)

/-- `dlmodel[xs]` as read by the residual comprehension (indices are
`xs < nxspec`, always in range; the default is never reached there). -/
def dlmodelAt (s : Hillipop) (p : Params) (cl_boltz : ℕ → ℕ → ℚ) (xs : ℕ) :
    ℕ → ℚ :=
  (dlmodelTT s p (dlthOf cl_boltz 0)).getD xs (fun _ => 0)

/-- The TT residual comprehension of `compute_likelihood`:
`self.dldata[0][xs] - cal[xs]*dlmodel[xs]`. -/
def RspecLik (s : Hillipop) (p : Params) (cl_boltz : ℕ → ℕ → ℚ)
    (xs ℓ : ℕ) : ℚ :=
  s.dldata 0 xs ℓ - (calLik s.nmap p).getD xs 0 * dlmodelAt s p cl_boltz xs ℓ

/-- The TT residual comprehension of `_compute_residuals` (same shape,
but with that function's own `cal` list). -/
def RspecRes (s : Hillipop) (p : Params) (cl_boltz : ℕ → ℕ → ℚ)
    (xs ℓ : ℕ) : ℚ :=
  s.dldata 0 xs ℓ - (calRes s.nmap p).getD xs 0 * dlmodelAt s p cl_boltz xs ℓ

/-- The cross-frequency averaged TT residual `Rl` of `compute_likelihood`. -/
def RlLik (s : Hillipop) (p : Params) (cl_boltz : ℕ → ℕ → ℚ) : ℕ → ℕ → ℚ :=
  xspectra_to_xfreq s (RspecLik s p cl_boltz) (s.dlweight 0)

/-!
## Multipole-range selection (`_select_spectra`) and the quadratic form
-/

/-- One cross-frequency block of `_select_spectra`: look up the first
map-pair index with cross-frequency `xf` (`self.xspec2xfreq.index(xf)`),
read `(lmin, lmax)` there, and slice `acl[xf, lmin:lmax+1]`.  `none`
models the `ValueError`/`IndexError` raised when a lookup fails. -/
def selectParts (s : Hillipop) (cl : ℕ → ℕ → ℚ) (mode : ℕ) :
    List (Option (List ℚ)) :=
  (List.range s.nxfreq).map fun xf =>
    match pyIndex xf s.xspec2xfreq with
    | none => none
    | some i =>
      match (s.lmins mode).get? i, (s.lmaxs mode).get? i with
      | some lo, some hi =>
        some ((List.range' lo (hi + 1 - lo)).map (cl xf))
      | _, _ => none

/-- `_select_spectra`: concatenate the per-cross-frequency slices; any
failed lookup aborts the whole call (a raised exception). -/
def select_spectra (s : Hillipop) (cl : ℕ → ℕ → ℚ) (mode : ℕ) :
    Option (List ℚ) :=
  if (selectParts s cl mode).all Option.isSome
  then some (((selectParts s cl mode).map (fun o => o.getD [])).flatten)
  else none

/-- `Xl.dot(self.invkll).dot(Xl)`. -/
def quadform (X : List ℚ) (M : ℕ → ℕ → ℚ) : ℚ :=
  ∑ i ∈ Finset.range X.length, ∑ j ∈ Finset.range X.length,
    X.getD i 0 * M i j * X.getD j 0

/-- `compute_likelihood`.  When `isTT` is false the local `Xl` is never
assigned and the final `Xl.dot(...)` raises `UnboundLocalError`, modelled
by `none`. -/
def compute_likelihood (s : Hillipop) (p : Params)
    (cl_boltz : ℕ → ℕ → ℚ) : Option ℚ :=
  if s.isTT then
    (select_spectra s (RlLik s p cl_boltz) 0).map fun Xl => quadform Xl s.invkll
  else none

/-- `_compute_residuals`.  When `isTT` is false the local `Rl` is never
assigned and `return(Rl)` raises `UnboundLocalError`, modelled by `none`. -/
def compute_residuals (s : Hillipop) (p : Params)
    (cl_boltz : ℕ → ℕ → ℚ) : Option (ℕ → ℕ → ℚ) :=
  if s.isTT then
    some (xspectra_to_xfreq s (RspecRes s p cl_boltz) (s.dlweight 0))
  else none

/-!
## Inverse covariance loading (`_read_invcovmatrix`)
-/

/-- One mode's contribution to the retained-bin count in
`_read_invcovmatrix`: `sum([nells[self.xspec2xfreq.index(k)] for k in
range(self.nxfreq)])` with `nells = lmaxs[m]-lmins[m]+1`. -/
def modeDim (s : Hillipop) (m : ℕ) : Option ℤ :=
  (List.range s.nxfreq).foldl
    (fun acc k => acc.bind fun a =>
      (pyIndex k s.xspec2xfreq).bind fun i =>
        ((s.lmins m).get? i).bind fun lo =>
          ((s.lmaxs m).get? i).bind fun hi =>
            some (a + ((hi : ℤ) - (lo : ℤ) + 1)))
    (some 0)

/-- The total dimension `nell` accumulated over the active modes. -/
def nellTotal (s : Hillipop) : Option ℤ :=
  (if s.isTT then modeDim s 0 else some 0).bind fun a =>
    (if s.isEE then modeDim s 1 else some 0).bind fun b =>
      (if s.isTE then modeDim s 2 else some 0).bind fun c =>
        (if s.isET then modeDim s 3 else some 0).bind fun d =>
          some (a + b + c + d)

/-- `_read_invcovmatrix` applied to the flat sequence read from the file:
compute `nell`, take `nel = int(np.sqrt(len(data)))`, reshape (which
raises unless the length is exactly `nel*nel`), compare with `nell`, and
on success return the matrix rescaled by `1e-24` (as its flat data
together with its dimension). -/
def read_invcovmatrix (s : Hillipop) (data : List ℚ) :
    Except String (ℕ × List ℚ) :=
  match nellTotal s with
  | none => .error "ValueError: x not in list"
  | some nell =>
    let nel := Nat.sqrt data.length
    if data.length ≠ nel * nel then
      .error "cannot reshape array"
    else if (nel : ℤ) ≠ nell then
      .error "Incoherent covariance matrix"
    else
      .ok (nel, data.map (· / 10 ^ 24))

/-- Boolean success test for an `Except` result. -/
def isOkE {α : Type} (e : Except String α) : Bool :=
  match e with
  | .ok _ => true
  | .error _ => false

/-!
## Binning (`class Bins`)
-/

/-- The `Bins` object state after a successful `__init__`: the retained
bounds together with the derived global `lmin`/`lmax`. -/
structure Bins where
  lmins : List ℤ
  lmaxs : List ℤ
  lmin : ℤ
  lmax : ℤ
deriving DecidableEq

/-- `self.nbins = len(self.lmins)`. -/
def Bins.nbins (b : Bins) : ℕ := b.lmins.length

/-- The `cutfirst` filter of `Bins.__init__`:
`np.logical_and(lmaxs>=2, lmins>=2)` applied to both bound arrays. -/
def binsFilter (lmins lmaxs : List ℤ) : List ℤ × List ℤ :=
  let kept := (lmins.zip lmaxs).filter fun p => decide (2 ≤ p.2 ∧ 2 ≤ p.1)
  (kept.map Prod.fst, kept.map Prod.snd)

/-- `Bins._derive_ext`: check `l1 <= l2` pairwise, then take the global
`lmin = min(lmins)` / `lmax = max(lmaxs)` (Python `min`/`max` raise on an
empty sequence), then check `lmin >= 1` and `lmax >= lmin`. -/
def deriveExt (lmins lmaxs : List ℤ) : Except String (ℤ × ℤ) :=
  if (lmins.zip lmaxs).any (fun p => decide (p.2 < p.1)) then
    .error "Incoherent inputs"
  else
    match pyMin lmins, pyMax lmaxs with
    | some lo, some hi =>
      if lo < 1 then .error "Input lmin is less than 1."
      else if hi < lo then .error "Input lmax is less than lmin."
      else .ok (lo, hi)
    | _, _ => .error "min() arg is an empty sequence"

/-- `Bins.__init__`: length check, `cutfirst` filter, `_derive_ext`. -/
def mkBins (lmins lmaxs : List ℤ) : Except String Bins :=
  if lmins.length ≠ lmaxs.length then .error "Incoherent inputs"
  else
    let f := binsFilter lmins lmaxs
    match deriveExt f.1 f.2 with
    | .error e => .error e
    | .ok lohi => .ok ⟨f.1, f.2, lohi.1, lohi.2⟩

/-- The value a successful `mkBins` returns (for stating exact results). -/
def binsVal (lmins lmaxs : List ℤ) : Bins :=
  let f := binsFilter lmins lmaxs
  ⟨f.1, f.2, (pyMin f.1).getD 0, (pyMax f.2).getD 0⟩

/-- The forward bin operator entry `p[i, ℓ]` built by `_bin_operators`
with uniform weighting (`bin_spectra` calls `self._bin_operators()` with
`Dl=False`, so `ell2` is all ones): `1/dl` inside bin `i`, else `0`. -/
def binP (b : Bins) (i : ℕ) (ℓ : ℤ) : ℚ :=
  match b.lmins.get? i, b.lmaxs.get? i with
  | some a, some z =>
    if a ≤ ℓ ∧ ℓ ≤ z then 1 / ((z - a + 1 : ℤ) : ℚ) else 0
  | _, _ => 0

/-- `Bins.bin_spectra`: truncate the input spectrum at
`min(len(spectra)-1, self.lmax)` and apply the forward operator. -/
def bin_spectra (b : Bins) (spectra : List ℚ) : List ℚ :=
  let minlmax : ℤ := min ((spectra.length : ℤ) - 1) b.lmax
  (List.range b.nbins).map fun i =>
    ∑ ℓ ∈ Finset.range (minlmax.toNat + 1),
      spectra.getD ℓ 0 * binP b i (ℓ : ℤ)

/-!
## Helper lemmas: the accumulation loop as a sum
-/

lemma accumPair_succ (x2x : List ℕ) (cl w : ℕ → ℕ → ℚ) (n : ℕ) :
    accumPair x2x cl w (n + 1) =
      (fun xf ℓ => if x2x.getD n 0 = xf
          then (accumPair x2x cl w n).1 xf ℓ + w n ℓ * cl n ℓ
          else (accumPair x2x cl w n).1 xf ℓ,
       fun xf ℓ => if x2x.getD n 0 = xf
          then (accumPair x2x cl w n).2 xf ℓ + w n ℓ
          else (accumPair x2x cl w n).2 xf ℓ) := by
  simp [accumPair, List.range_succ]

lemma accumPair_fst (x2x : List ℕ) (cl w : ℕ → ℕ → ℚ) (n : ℕ) :
    (accumPair x2x cl w n).1 = fun xf ℓ =>
      ∑ xs ∈ Finset.range n,
        if x2x.getD xs 0 = xf then w xs ℓ * cl xs ℓ else 0 := by
  induction n with
  | zero => funext xf ℓ; simp [accumPair]
  | succ n ih =>
    funext xf ℓ
    rw [accumPair_succ]
    by_cases h : x2x[n]?.getD 0 = xf <;>
      simp [h, ih, Finset.sum_range_succ]

lemma accumPair_snd (x2x : List ℕ) (cl w : ℕ → ℕ → ℚ) (n : ℕ) :
    (accumPair x2x cl w n).2 = fun xf ℓ =>
      ∑ xs ∈ Finset.range n,
        if x2x.getD xs 0 = xf then w xs ℓ else 0 := by
  induction n with
  | zero => funext xf ℓ; simp [accumPair]
  | succ n ih =>
    funext xf ℓ
    rw [accumPair_succ]
    by_cases h : x2x[n]?.getD 0 = xf <;>
      simp [h, ih, Finset.sum_range_succ]

lemma xspectra_to_xfreq_eq (s : Hillipop) (cl w : ℕ → ℕ → ℚ) (xf ℓ : ℕ) :
    xspectra_to_xfreq s cl w xf ℓ =
      if weightTot s w xf ℓ = 0 then 0
      else weightedClTot s cl w xf ℓ / weightTot s w xf ℓ := by
  simp only [xspectra_to_xfreq, weightTot, weightedClTot,
    accumPair_fst, accumPair_snd]

/-- C5: in the cross-frequency weighted average, a bucket/multipole with
zero accumulated weight yields exactly zero (the zero denominator is
replaced by an infinite one); with positive accumulated weight the
result is the weight-weighted mean of the contributing spectra. -/
theorem C5_weighted_average (s : Hillipop) (cl w : ℕ → ℕ → ℚ) (xf ℓ : ℕ) :
    (weightTot s w xf ℓ = 0 → xspectra_to_xfreq s cl w xf ℓ = 0) ∧
    (0 < weightTot s w xf ℓ →
      xspectra_to_xfreq s cl w xf ℓ =
        weightedClTot s cl w xf ℓ / weightTot s w xf ℓ) := by
  rw [xspectra_to_xfreq_eq]
  constructor
  · intro h; simp [h]
  · intro h; rw [if_neg (ne_of_gt h)]

/-- Minimal concrete configuration: two maps at the same frequency (one
cross-spectrum feeding the single cross-frequency), TT only, multipole
range [2,2]. -/
def W1 : Hillipop where
  nmap := 2
  fqs := [100, 100]
  isTT := true
  isEE := false
  isTE := false
  isET := false
  lmins := fun _ => [2]
  lmaxs := fun _ => [2]
  dldata := fun _ _ _ => 0
  dlweight := fun _ _ _ => 1
  fgsTT := []
  invkll := fun _ _ => 0

theorem C5_witness :
    (0 : ℚ) < weightTot W1 (fun _ _ => 1) 0 2 ∧
    xspectra_to_xfreq W1 (fun _ _ => 5) (fun _ _ => 1) 0 2 =
      weightedClTot W1 (fun _ _ => 5) (fun _ _ => 1) 0 2 /
        weightTot W1 (fun _ _ => 1) 0 2 := by
  have hn : W1.nxspec = 1 := by decide
  have hx : W1.xspec2xfreq.getD 0 0 = 0 := by decide
  have h : (0 : ℚ) < weightTot W1 (fun _ _ => 1) 0 2 := by
    simp only [weightTot, hn, Finset.sum_range_one, hx]
    norm_num
  exact ⟨h, (C5_weighted_average W1 (fun _ _ => 5) (fun _ _ => 1) 0 2).2 h⟩

/-- C10: when TT is not active, `compute_likelihood` and
`_compute_residuals` fail for every parameter dictionary and theory
spectrum (the locals `Xl`/`Rl` are never assigned before use); only
configurations with TT active can yield a result. -/
theorem C10_TT_required (s : Hillipop) (p : Params)
    (cl_boltz : ℕ → ℕ → ℚ) :
    (s.isTT = false →
      compute_likelihood s p cl_boltz = none ∧
      compute_residuals s p cl_boltz = none) ∧
    (∀ r, compute_likelihood s p cl_boltz = some r → s.isTT = true) ∧
    (∀ R, compute_residuals s p cl_boltz = some R → s.isTT = true) := by
  cases hTT : s.isTT <;>
    simp [compute_likelihood, compute_residuals, hTT]

/-- Like `W1` but with TT inactive. -/
def W10 : Hillipop :=
  { W1 with isTT := false }

/-- All-zero nuisance parameters, `Aplanck = 1`. -/
def P0 : Params := ⟨1, fun _ => 0⟩

theorem C10_witness :
    compute_likelihood W10 P0 (fun _ _ => 0) = none ∧
    compute_residuals W10 P0 (fun _ _ => 0) = none :=
  (C10_TT_required W10 P0 (fun _ _ => 0)).1 rfl

/-!
## C1: the per-pair calibration factors
-/

lemma calLik_eq_map (nmap : ℕ) (p : Params) :
    calLik nmap p = (xspec2mapF nmap).map fun mm =>
      p.Aplanck * p.Aplanck * (1 + p.c mm.1) * (1 + p.c mm.2) := by
  simp [calLik, xspec2mapF, List.map_flatMap, List.map_map, Function.comp_def]

lemma calRes_eq_map (nmap : ℕ) (p : Params) :
    calRes nmap p = (xspec2mapF nmap).map fun mm =>
      p.Aplanck * p.Aplanck * (1 + p.c mm.1 + p.c mm.2) := by
  simp [calRes, xspec2mapF, List.map_flatMap, List.map_map, Function.comp_def]

/-- C1 (amended): for the map pair `(m1,m2)` at cross-spectrum index
`xs`, `compute_likelihood` forms the residual with calibration factor
`Aplanck² · (1+c_m1) · (1+c_m2)`, while `_compute_residuals` uses the
first-order form `Aplanck² · (1 + c_m1 + c_m2)` instead. -/
theorem C1_calibration (s : Hillipop) (p : Params) (cl_boltz : ℕ → ℕ → ℚ)
    (xs m1 m2 : ℕ) (hxs : s.xspec2map[xs]? = some (m1, m2)) (ℓ : ℕ) :
    RspecLik s p cl_boltz xs ℓ =
      s.dldata 0 xs ℓ -
        p.Aplanck * p.Aplanck * (1 + p.c m1) * (1 + p.c m2) *
          dlmodelAt s p cl_boltz xs ℓ ∧
    RspecRes s p cl_boltz xs ℓ =
      s.dldata 0 xs ℓ -
        p.Aplanck * p.Aplanck * (1 + p.c m1 + p.c m2) *
          dlmodelAt s p cl_boltz xs ℓ := by
  rw [Hillipop.xspec2map] at hxs
  have h1 : (calLik s.nmap p).getD xs 0 =
      p.Aplanck * p.Aplanck * (1 + p.c m1) * (1 + p.c m2) := by
    rw [calLik_eq_map, List.getD_eq_getElem?_getD, List.getElem?_map, hxs]
    rfl
  have h2 : (calRes s.nmap p).getD xs 0 =
      p.Aplanck * p.Aplanck * (1 + p.c m1 + p.c m2) := by
    rw [calRes_eq_map, List.getD_eq_getElem?_getD, List.getElem?_map, hxs]
    rfl
  rw [RspecLik, RspecRes, h1, h2]
  exact ⟨rfl, rfl⟩

/-- Nuisance parameters with `Aplanck = 1` and every offset `c_m = 1`
(the two calibration formulas differ: `(1+1)·(1+1) = 4 ≠ 3 = 1+1+1`). -/
def P1 : Params := ⟨1, fun _ => 1⟩

/-- Constant theory spectrum `Cl = 1`. -/
def Cl1 : ℕ → ℕ → ℚ := fun _ _ => 1

lemma dlmodelAt_W1 : dlmodelAt W1 P1 Cl1 0 2 = 3 * 10 ^ 12 / npPi := by
  have hn : W1.nxspec = 1 := by decide
  simp only [dlmodelAt, dlmodelTT, hn]
  simp [W1, dlthOf, Cl1]
  norm_num
  ring

lemma calRes_W1_P1 : calRes W1.nmap P1 = [3] := by
  have h2 : List.range 2 = [0, 1] := by decide
  have h11 : List.range' 1 1 = [1] := by decide
  have h20 : List.range' 2 0 = [] := by decide
  have hm : W1.nmap = 2 := by decide
  rw [hm, calRes, h2]
  simp [h11, h20, P1]
  norm_num

/-- C1 counterexample: with `Aplanck = 1` and `c_0 = c_1 = 1`,
`_compute_residuals` does NOT form `data - Aplanck²(1+c_0)(1+c_1)·model`
(it multiplies the model by 3, not 4). -/
theorem C1_counterexample :
    RspecRes W1 P1 Cl1 0 2 ≠
      W1.dldata 0 0 2 -
        P1.Aplanck * P1.Aplanck * (1 + P1.c 0) * (1 + P1.c 1) *
          dlmodelAt W1 P1 Cl1 0 2 := by
  rw [RspecRes, calRes_W1_P1, dlmodelAt_W1]
  simp [W1, P1]
  norm_num [npPi]

theorem C1_witness :
    RspecLik W1 P1 Cl1 0 2 =
      W1.dldata 0 0 2 -
        P1.Aplanck * P1.Aplanck * (1 + P1.c 0) * (1 + P1.c 1) *
          dlmodelAt W1 P1 Cl1 0 2 ∧
    RspecRes W1 P1 Cl1 0 2 =
      W1.dldata 0 0 2 -
        P1.Aplanck * P1.Aplanck * (1 + P1.c 0 + P1.c 1) *
          dlmodelAt W1 P1 Cl1 0 2 :=
  C1_calibration W1 P1 Cl1 0 0 1 (by decide) 2

/-!
## Facts about `pyIndex` (Python `list.index`)
-/

lemma pyIndex_isSome {α : Type} [DecidableEq α] {x : α} {l : List α}
    (h : x ∈ l) : ∃ i, pyIndex x l = some i := by
  induction l with
  | nil => cases h
  | cons y ys ih =>
    by_cases hy : y = x
    · exact ⟨0, by simp [pyIndex, hy]⟩
    · have hx : x ∈ ys := by
        rcases List.mem_cons.1 h with h | h
        · exact absurd h.symm hy
        · exact h
      obtain ⟨i, hi⟩ := ih hx
      exact ⟨i + 1, by simp [pyIndex, hy, hi]⟩

lemma pyIndex_none {α : Type} [DecidableEq α] {x : α} {l : List α}
    (h : x ∉ l) : pyIndex x l = none := by
  induction l with
  | nil => rfl
  | cons y ys ih =>
    rw [pyIndex]
    rw [if_neg (by intro hy; exact h (hy ▸ List.mem_cons_self y ys))]
    rw [ih (fun hx => h (List.mem_cons_of_mem y hx))]
    rfl

lemma pyIndex_lt {α : Type} [DecidableEq α] {x : α} {l : List α} {i : ℕ}
    (h : pyIndex x l = some i) : i < l.length := by
  induction l generalizing i with
  | nil => cases h
  | cons y ys ih =>
    rw [pyIndex] at h
    split at h
    · cases h; simp
    · obtain ⟨j, hj, rfl⟩ := Option.map_eq_some'.1 h
      simpa using ih hj

lemma pyIndex_first {α : Type} [DecidableEq α] {x : α} {l : List α} {i : ℕ}
    (h : pyIndex x l = some i) :
    l[i]? = some x ∧ ∀ j < i, l[j]? ≠ some x := by
  induction l generalizing i with
  | nil => cases h
  | cons y ys ih =>
    rw [pyIndex] at h
    split at h
    case isTrue hy =>
      cases h
      exact ⟨by simp [hy], by omega⟩
    case isFalse hy =>
      obtain ⟨j, hj, rfl⟩ := Option.map_eq_some'.1 h
      obtain ⟨hget, hfirst⟩ := ih hj
      refine ⟨by simpa using hget, ?_⟩
      intro k hk
      cases k with
      | zero => simpa using fun hxy => hy hxy
      | succ k =>
        have := hfirst k (by omega)
        simpa using this

/-!
## Facts about the map-pair enumeration and the TT model list
-/

lemma sum_map_range (n : ℕ) (f : ℕ → ℕ) :
    ((List.range n).map f).sum = ∑ i ∈ Finset.range n, f i := by
  induction n with
  | zero => simp
  | succ n ih => rw [List.range_succ]; simp [ih, Finset.sum_range_succ]

lemma xspec2mapF_length (n : ℕ) :
    (xspec2mapF n).length = n * (n - 1) / 2 := by
  rw [xspec2mapF, List.length_flatMap]
  simp only [Function.comp_def, List.length_map, List.length_range']
  rw [sum_map_range]
  have h2 : ∑ i ∈ Finset.range n, (n - (i + 1)) =
      ∑ i ∈ Finset.range n, (n - 1 - i) :=
    Finset.sum_congr rfl fun i _ => by omega
  rw [h2, Finset.sum_range_reflect (fun i => i) n, Finset.sum_range_id]

lemma xspec2mapF_mem (n : ℕ) (mm : ℕ × ℕ) (h : mm ∈ xspec2mapF n) :
    mm.1 < mm.2 ∧ mm.2 < n := by
  rw [xspec2mapF] at h
  simp only [List.mem_flatMap, List.mem_map, List.mem_range] at h
  obtain ⟨m1, hm1, m2, hm2, rfl⟩ := h
  rw [List.mem_range'_1] at hm2
  simp only []
  omega

lemma foldl_append_getD (p : Params) (fgs : List (Params → List (ℕ → ℚ))) :
    ∀ (acc : List (ℕ → ℚ)) (i : ℕ), i < acc.length →
      (fgs.foldl (fun a fg => a ++ fg p) acc).getD i (fun _ => 0) =
        acc.getD i (fun _ => 0) := by
  induction fgs with
  | nil => intro acc i _; rfl
  | cons fg fgs ih =>
    intro acc i h
    rw [List.foldl_cons, ih (acc ++ fg p) i (by rw [List.length_append]; omega)]
    rw [List.getD_eq_getElem?_getD, List.getElem?_append, if_pos h,
      ← List.getD_eq_getElem?_getD]

/-- Because `dlmodel` is a Python list that gets EXTENDED (not added to)
by each foreground contribution, its first `nxspec` entries are always
the bare converted theory spectrum. -/
lemma dlmodelAt_lt (s : Hillipop) (p : Params) (cl_boltz : ℕ → ℕ → ℚ)
    (xs : ℕ) (h : xs < s.nxspec) :
    dlmodelAt s p cl_boltz xs = dlthOf cl_boltz 0 := by
  rw [dlmodelAt, dlmodelTT,
    foldl_append_getD p s.fgsTT _ xs (by simpa using h)]
  rw [List.getD_eq_getElem?_getD, List.getElem?_replicate, if_pos h]
  rfl

/-!
## C2 helper lemmas
-/

lemma calLik_getD_one (s : Hillipop) (p : Params) (hA : p.Aplanck = 1)
    (hc : ∀ m < s.nmap, p.c m = 0) (xs : ℕ) (h : xs < s.nxspec) :
    (calLik s.nmap p).getD xs 0 = 1 := by
  rw [calLik_eq_map, List.getD_eq_getElem?_getD]
  have hlen : xs < (xspec2mapF s.nmap).length := by
    rw [xspec2mapF_length]; exact h
  have hlen2 : xs < ((xspec2mapF s.nmap).map fun mm =>
      p.Aplanck * p.Aplanck * (1 + p.c mm.1) * (1 + p.c mm.2)).length := by
    rw [List.length_map]; exact hlen
  rw [List.getElem?_eq_getElem hlen2]
  rw [List.getElem_map]
  have hmem : (xspec2mapF s.nmap)[xs] ∈ xspec2mapF s.nmap :=
    List.getElem_mem hlen
  obtain ⟨hlt, hn⟩ := xspec2mapF_mem s.nmap _ hmem
  simp only [Option.getD_some, hA, hc _ (lt_trans hlt hn), hc _ hn]
  norm_num

lemma RspecLik_zero (s : Hillipop) (p : Params) (cl_boltz : ℕ → ℕ → ℚ)
    (hA : p.Aplanck = 1) (hc : ∀ m < s.nmap, p.c m = 0)
    (hdata : ∀ xs < s.nxspec, ∀ ℓ, s.dldata 0 xs ℓ = dlthOf cl_boltz 0 ℓ)
    (xs ℓ : ℕ) (h : xs < s.nxspec) :
    RspecLik s p cl_boltz xs ℓ = 0 := by
  rw [RspecLik, calLik_getD_one s p hA hc xs h, dlmodelAt_lt s p cl_boltz xs h,
    hdata xs h ℓ, one_mul, sub_self]

lemma RlLik_zero (s : Hillipop) (p : Params) (cl_boltz : ℕ → ℕ → ℚ)
    (hA : p.Aplanck = 1) (hc : ∀ m < s.nmap, p.c m = 0)
    (hdata : ∀ xs < s.nxspec, ∀ ℓ, s.dldata 0 xs ℓ = dlthOf cl_boltz 0 ℓ)
    (xf ℓ : ℕ) : RlLik s p cl_boltz xf ℓ = 0 := by
  rw [RlLik, xspectra_to_xfreq_eq]
  have h0 : weightedClTot s (RspecLik s p cl_boltz) (s.dlweight 0) xf ℓ = 0 := by
    apply Finset.sum_eq_zero
    intro xs hxs
    rw [Finset.mem_range] at hxs
    rw [RspecLik_zero s p cl_boltz hA hc hdata xs ℓ hxs, mul_zero, ite_self]
  rw [h0]
  split
  · rfl
  · rw [zero_div]

/-!
## Multipole-range selection: success and value lemmas
-/

lemma select_spectra_isSome (s : Hillipop) (cl : ℕ → ℕ → ℚ) (mode : ℕ)
    (hxf : ∀ xf < s.nxfreq, xf ∈ s.xspec2xfreq)
    (h1 : s.xspec2xfreq.length ≤ (s.lmins mode).length)
    (h2 : s.xspec2xfreq.length ≤ (s.lmaxs mode).length) :
    ∃ L, select_spectra s cl mode = some L := by
  rw [select_spectra]
  have hall : (selectParts s cl mode).all Option.isSome = true := by
    rw [List.all_eq_true]
    intro o ho
    rw [selectParts] at ho
    obtain ⟨xf, hxfm, rfl⟩ := List.mem_map.1 ho
    rw [List.mem_range] at hxfm
    obtain ⟨i, hi⟩ := pyIndex_isSome (hxf xf hxfm)
    have hilt : i < s.xspec2xfreq.length := pyIndex_lt hi
    have hlo := List.getElem?_eq_getElem (lt_of_lt_of_le hilt h1)
    have hhi := List.getElem?_eq_getElem (lt_of_lt_of_le hilt h2)
    simp [hi, hlo, hhi]
  rw [if_pos hall]
  exact ⟨_, rfl⟩

lemma select_spectra_vals (s : Hillipop) (cl : ℕ → ℕ → ℚ) (mode : ℕ)
    (L : List ℚ) (hL : select_spectra s cl mode = some L)
    (x : ℚ) (hx : x ∈ L) : ∃ xf ℓ, x = cl xf ℓ := by
  rw [select_spectra] at hL
  split at hL
  case isFalse => cases hL
  case isTrue hall =>
    cases hL
    obtain ⟨l, hl, hxl⟩ := List.mem_flatten.1 hx
    obtain ⟨o, ho, rfl⟩ := List.mem_map.1 hl
    rw [selectParts] at ho
    obtain ⟨xf, _, rfl⟩ := List.mem_map.1 ho
    split at hxl
    · cases hxl
    · split at hxl
      · rw [Option.getD_some, List.mem_map] at hxl
        obtain ⟨ℓ, _, hx⟩ := hxl
        exact ⟨xf, ℓ, hx.symm⟩
      · cases hxl

lemma quadform_zero (L : List ℚ) (M : ℕ → ℕ → ℚ)
    (h : ∀ x ∈ L, x = 0) : quadform L M = 0 := by
  rw [quadform]
  apply Finset.sum_eq_zero
  intro i _
  apply Finset.sum_eq_zero
  intro j _
  have hi0 : L.getD i 0 = 0 := by
    rcases Nat.lt_or_ge i L.length with hlt | hge
    · rw [List.getD_eq_getElem?_getD, List.getElem?_eq_getElem hlt]
      exact h _ (List.getElem_mem hlt)
    · rw [List.getD_eq_getElem?_getD, List.getElem?_eq_none hge]
      rfl
  rw [hi0, zero_mul, zero_mul]

/-- C2: with `Aplanck = 1`, all calibration offsets zero, theory matching
the stored data after the Dl conversion, and all foreground
contributions zero, `compute_likelihood` produces an all-zero residual
vector for every cross-frequency and returns exactly 0.  (The structural
hypotheses `hxf`, `h1`, `h2` say that every cross-frequency is fed by at
least one map pair and the multipole-range tables are long enough, as in
any well-formed configuration.) -/
theorem C2_perfect_model (s : Hillipop) (p : Params)
    (cl_boltz : ℕ → ℕ → ℚ)
    (hTT : s.isTT = true)
    (hA : p.Aplanck = 1)
    (hc : ∀ m < s.nmap, p.c m = 0)
    (hdata : ∀ xs < s.nxspec, ∀ ℓ, s.dldata 0 xs ℓ = dlthOf cl_boltz 0 ℓ)
    (_hfg : ∀ fg ∈ s.fgsTT, ∀ sp ∈ fg p, ∀ ℓ, sp ℓ = 0)
    (hxf : ∀ xf < s.nxfreq, xf ∈ s.xspec2xfreq)
    (h1 : s.xspec2xfreq.length ≤ (s.lmins 0).length)
    (h2 : s.xspec2xfreq.length ≤ (s.lmaxs 0).length) :
    (∀ xf ℓ, RlLik s p cl_boltz xf ℓ = 0) ∧
    compute_likelihood s p cl_boltz = some 0 := by
  have hzero : ∀ xf ℓ, RlLik s p cl_boltz xf ℓ = 0 :=
    fun xf ℓ => RlLik_zero s p cl_boltz hA hc hdata xf ℓ
  refine ⟨hzero, ?_⟩
  obtain ⟨L, hL⟩ :=
    select_spectra_isSome s (RlLik s p cl_boltz) 0 hxf h1 h2
  rw [compute_likelihood, if_pos hTT, hL, Option.map_some']
  have hLz : ∀ x ∈ L, x = 0 := by
    intro x hx
    obtain ⟨xf, ℓ, rfl⟩ := select_spectra_vals s _ 0 L hL x hx
    exact hzero xf ℓ
  rw [quadform_zero L s.invkll hLz]

theorem C2_witness :
    compute_likelihood W1 P0 (fun _ _ => 0) = some 0 :=
  (C2_perfect_model W1 P0 (fun _ _ => 0)
    rfl
    rfl
    (fun _ _ => rfl)
    (by intro xs _ ℓ; simp [W1, dlthOf])
    (by intro fg hfg; simp [W1] at hfg)
    (by decide)
    (by decide)
    (by decide)).2

/-!
## C9: first-occurrence lookups and their precondition
-/

lemma modeDim_foldl_none (s : Hillipop) (m : ℕ) (l : List ℕ) :
    l.foldl
      (fun acc k => acc.bind fun a =>
        (pyIndex k s.xspec2xfreq).bind fun i =>
          ((s.lmins m).get? i).bind fun lo =>
            ((s.lmaxs m).get? i).bind fun hi =>
              some (a + ((hi : ℤ) - (lo : ℤ) + 1)))
      none = none := by
  induction l with
  | nil => rfl
  | cons k l ih => rw [List.foldl_cons]; exact ih

lemma modeDim_isSome (s : Hillipop) (m : ℕ)
    (hxf : ∀ xf < s.nxfreq, xf ∈ s.xspec2xfreq)
    (h1 : s.xspec2xfreq.length ≤ (s.lmins m).length)
    (h2 : s.xspec2xfreq.length ≤ (s.lmaxs m).length) :
    ∃ N, modeDim s m = some N := by
  rw [modeDim]
  suffices h : ∀ (l : List ℕ), (∀ k ∈ l, k < s.nxfreq) → ∀ (a : ℤ),
      ∃ N, l.foldl
        (fun acc k => acc.bind fun a =>
          (pyIndex k s.xspec2xfreq).bind fun i =>
            ((s.lmins m).get? i).bind fun lo =>
              ((s.lmaxs m).get? i).bind fun hi =>
                some (a + ((hi : ℤ) - (lo : ℤ) + 1)))
        (some a) = some N by
    exact h (List.range s.nxfreq) (fun k hk => List.mem_range.1 hk) 0
  intro l hl
  induction l with
  | nil => intro a; exact ⟨a, rfl⟩
  | cons k l ih =>
    intro a
    obtain ⟨i, hi⟩ := pyIndex_isSome (hxf k (hl k (List.mem_cons_self k l)))
    have hilt : i < s.xspec2xfreq.length := pyIndex_lt hi
    have hlo := List.getElem?_eq_getElem (lt_of_lt_of_le hilt h1)
    have hhi := List.getElem?_eq_getElem (lt_of_lt_of_le hilt h2)
    rw [List.foldl_cons]
    have hstep : ((some a).bind fun a =>
        (pyIndex k s.xspec2xfreq).bind fun i =>
          ((s.lmins m).get? i).bind fun lo =>
            ((s.lmaxs m).get? i).bind fun hi =>
              some (a + ((hi : ℤ) - (lo : ℤ) + 1))) =
        some (a + (((s.lmaxs m).get ⟨i, lt_of_lt_of_le hilt h2⟩ : ℤ) -
          ((s.lmins m).get ⟨i, lt_of_lt_of_le hilt h1⟩ : ℤ) + 1)) := by
      simp [hi, hlo, hhi, List.get?_eq_getElem?]
    rw [hstep]
    exact ih (fun k hk => hl k (List.mem_cons_of_mem _ hk)) _

lemma modeDim_none (s : Hillipop) (m : ℕ) (xf : ℕ) (hlt : xf < s.nxfreq)
    (hnm : xf ∉ s.xspec2xfreq) : modeDim s m = none := by
  rw [modeDim]
  obtain ⟨l1, l2, hsplit⟩ := List.append_of_mem (List.mem_range.2 hlt)
  rw [hsplit, List.foldl_append, List.foldl_cons]
  have hstep : ∀ acc : Option ℤ,
      (acc.bind fun a =>
        (pyIndex xf s.xspec2xfreq).bind fun i =>
          ((s.lmins m).get? i).bind fun lo =>
            ((s.lmaxs m).get? i).bind fun hi =>
              some (a + ((hi : ℤ) - (lo : ℤ) + 1))) = none := by
    intro acc
    cases acc <;> simp [pyIndex_none hnm]
  rw [hstep]
  exact modeDim_foldl_none s m l2

lemma select_spectra_fails (s : Hillipop) (cl : ℕ → ℕ → ℚ) (mode : ℕ)
    (xf : ℕ) (hlt : xf < s.nxfreq) (hnm : xf ∉ s.xspec2xfreq) :
    select_spectra s cl mode = none := by
  rw [select_spectra]
  have hmem : (none : Option (List ℚ)) ∈ selectParts s cl mode := by
    rw [selectParts]
    refine List.mem_map.2 ⟨xf, List.mem_range.2 hlt, ?_⟩
    rw [pyIndex_none hnm]
  rw [if_neg]
  intro hall
  have := List.all_eq_true.1 hall none hmem
  simp at this

/-- C9: the multipole-range selection and the covariance-dimension count
both look up the table at the index of the FIRST map pair whose
cross-frequency is `xf`; they are well-defined when every cross-frequency
index is attained by at least one map pair (and the tables are long
enough), and both fail on configurations where some cross-frequency
receives zero map pairs (in that case the covariance load fails too when
TT is active). -/
theorem C9_first_occurrence (s : Hillipop) (cl : ℕ → ℕ → ℚ) (m : ℕ) :
    ((∀ xf < s.nxfreq, xf ∈ s.xspec2xfreq) →
      s.xspec2xfreq.length ≤ (s.lmins m).length →
      s.xspec2xfreq.length ≤ (s.lmaxs m).length →
      (∃ L, select_spectra s cl m = some L) ∧
      (∃ N, modeDim s m = some N) ∧
      (∀ xf < s.nxfreq, ∃ i, pyIndex xf s.xspec2xfreq = some i ∧
        s.xspec2xfreq[i]? = some xf ∧
        ∀ j < i, s.xspec2xfreq[j]? ≠ some xf)) ∧
    ((∃ xf, xf < s.nxfreq ∧ xf ∉ s.xspec2xfreq) →
      select_spectra s cl m = none ∧ modeDim s m = none ∧
      (s.isTT = true → nellTotal s = none)) := by
  constructor
  · intro hxf h1 h2
    refine ⟨select_spectra_isSome s cl m hxf h1 h2,
      modeDim_isSome s m hxf h1 h2, ?_⟩
    intro xf hlt
    obtain ⟨i, hi⟩ := pyIndex_isSome (hxf xf hlt)
    obtain ⟨hget, hfirst⟩ := pyIndex_first hi
    exact ⟨i, hi, hget, hfirst⟩
  · rintro ⟨xf, hlt, hnm⟩
    refine ⟨select_spectra_fails s cl m xf hlt hnm,
      modeDim_none s m xf hlt hnm, ?_⟩
    intro hTT
    rw [nellTotal, hTT, if_pos rfl, modeDim_none s 0 xf hlt hnm]
    rfl

/-- Configuration with two maps at distinct frequencies: cross-frequency
indices 0 (100x100) and 2 (143x143) receive no map pair at all. -/
def W9 : Hillipop where
  nmap := 2
  fqs := [100, 143]
  isTT := true
  isEE := false
  isTE := false
  isET := false
  lmins := fun _ => [2, 2, 2]
  lmaxs := fun _ => [4, 4, 4]
  dldata := fun _ _ _ => 0
  dlweight := fun _ _ _ => 1
  fgsTT := []
  invkll := fun _ _ => 0

theorem C9_witness :
    select_spectra W9 (fun _ _ => 0) 0 = none ∧ modeDim W9 0 = none ∧
    (W9.isTT = true → nellTotal W9 = none) :=
  (C9_first_occurrence W9 (fun _ _ => 0) 0).2 ⟨0, by decide, by decide⟩

/-!
## C3: the covariance-matrix load
-/

lemma read_invcovmatrix_eq (s : Hillipop) (data : List ℚ) (nell : ℤ)
    (h : nellTotal s = some nell) :
    read_invcovmatrix s data =
      if data.length ≠ Nat.sqrt data.length * Nat.sqrt data.length then
        .error "cannot reshape array"
      else if (Nat.sqrt data.length : ℤ) ≠ nell then
        .error "Incoherent covariance matrix"
      else .ok (Nat.sqrt data.length, data.map (· / 10 ^ 24)) := by
  simp only [read_invcovmatrix, h]

/-- C3 (amended): given a computed retained-bin count `nell ≥ 0`, the
covariance load succeeds exactly when the flat length is `nell²`
(returning the `1e-24`-rescaled data); for any other length it raises —
including lengths that are NOT perfect squares but whose floor square
root equals `nell`, where the reshape raises before the dimension check.
-/
theorem C3_invcov_load (s : Hillipop) (data : List ℚ) (nell : ℤ)
    (h : nellTotal s = some nell) (h0 : 0 ≤ nell) :
    (isOkE (read_invcovmatrix s data) = true ↔
      (data.length : ℤ) = nell * nell) ∧
    ((data.length : ℤ) = nell * nell →
      read_invcovmatrix s data =
        .ok (Nat.sqrt data.length, data.map (· / 10 ^ 24))) := by
  have ht : ((nell.toNat : ℤ)) = nell := Int.toNat_of_nonneg h0
  have hmain : (data.length : ℤ) = nell * nell →
      read_invcovmatrix s data =
        .ok (Nat.sqrt data.length, data.map (· / 10 ^ 24)) := by
    intro hlen
    have hn : data.length = nell.toNat * nell.toNat := by
      have h2 : (data.length : ℤ) = ((nell.toNat * nell.toNat : ℕ) : ℤ) := by
        push_cast [ht]
        exact hlen
      exact_mod_cast h2
    have hsq : Nat.sqrt data.length = nell.toNat := by
      rw [hn, Nat.sqrt_eq]
    rw [read_invcovmatrix_eq s data nell h]
    rw [if_neg (fun hne => hne (by rw [hsq, ← hn]))]
    rw [if_neg (fun hne => hne (by rw [hsq, ht]))]
  refine ⟨⟨?_, fun hlen => by rw [hmain hlen]; rfl⟩, hmain⟩
  intro hok
  rw [read_invcovmatrix_eq s data nell h] at hok
  by_cases hre : data.length = Nat.sqrt data.length * Nat.sqrt data.length
  · rw [if_neg (fun hne => hne hre)] at hok
    by_cases hel : (Nat.sqrt data.length : ℤ) = nell
    · rw [← hel]
      exact_mod_cast hre
    · rw [if_pos hel] at hok
      cases hok
  · rw [if_pos hre] at hok
    cases hok

/-- C3 counterexample: with retained-bin count `nell = 1` and a flat
sequence of length 2, the floor square root of the length (1) EQUALS
`nell`, yet the load fails (numpy's reshape raises first): the claim
"when they agree the load succeeds" is false. -/
theorem C3_counterexample :
    nellTotal W1 = some 1 ∧
    (Nat.sqrt ([(0 : ℚ), 0]).length : ℤ) = 1 ∧
    isOkE (read_invcovmatrix W1 [(0 : ℚ), 0]) = false := by
  have hs : Nat.sqrt 2 = 1 := by
    have hle : 1 ≤ Nat.sqrt 2 := Nat.le_sqrt.2 (by norm_num)
    have hlt : Nat.sqrt 2 < 2 := Nat.sqrt_lt.2 (by norm_num)
    omega
  refine ⟨by decide, by simpa using hs, ?_⟩
  rw [read_invcovmatrix_eq W1 [(0 : ℚ), 0] 1 (by decide)]
  rw [if_pos (show ([(0 : ℚ), 0]).length ≠ _ by simp [hs])]
  rfl

theorem C3_witness :
    nellTotal W1 = some 1 ∧
    read_invcovmatrix W1 [(5 : ℚ)] =
      .ok (Nat.sqrt ([(5 : ℚ)]).length, ([(5 : ℚ)]).map (· / 10 ^ 24)) :=
  ⟨by decide,
    (C3_invcov_load W1 [(5 : ℚ)] 1 (by decide) (by decide)).2 (by norm_num)⟩

/-!
## C6/C7: Bins construction
-/

lemma binsFilter_zip (lmins lmaxs : List ℤ) :
    ((binsFilter lmins lmaxs).1).zip ((binsFilter lmins lmaxs).2) =
      (lmins.zip lmaxs).filter (fun p => decide (2 ≤ p.2 ∧ 2 ≤ p.1)) := by
  rw [binsFilter]
  rw [List.zip_map']
  simp

/-- C6 (amended): `Bins` construction fails whenever the bound sequences
have different lengths, and whenever some bin RETAINED by the
`lmin ≥ 2 ∧ lmax ≥ 2` filter has `lmin > lmax`; a bin with `lmin > lmax`
that is dropped by the filter does not by itself cause a failure. -/
theorem C6_bins_errors (lmins lmaxs : List ℤ) :
    (lmins.length ≠ lmaxs.length → isOkE (mkBins lmins lmaxs) = false) ∧
    (∀ a z : ℤ, (a, z) ∈ lmins.zip lmaxs → 2 ≤ a → 2 ≤ z → z < a →
      isOkE (mkBins lmins lmaxs) = false) := by
  constructor
  · intro h
    rw [mkBins, if_pos h]
    rfl
  · intro a z hmem ha hz hza
    by_cases hlen : lmins.length ≠ lmaxs.length
    · rw [mkBins, if_pos hlen]; rfl
    · have hkept : (a, z) ∈ (lmins.zip lmaxs).filter
          (fun p => decide (2 ≤ p.2 ∧ 2 ≤ p.1)) :=
        List.mem_filter.2 ⟨hmem, by simp [ha, hz]⟩
      have hany : (((binsFilter lmins lmaxs).1).zip
          ((binsFilter lmins lmaxs).2)).any
            (fun p => decide (p.2 < p.1)) = true := by
        rw [binsFilter_zip, List.any_eq_true]
        exact ⟨(a, z), hkept, by simp [hza]⟩
      have hde : deriveExt (binsFilter lmins lmaxs).1
          (binsFilter lmins lmaxs).2 = .error "Incoherent inputs" := by
        rw [deriveExt, if_pos hany]
      simp only [mkBins, if_neg hlen, hde]
      rfl

/-- C6 counterexample: `lmins = [3,5]`, `lmaxs = [1,5]` has a bin with
`lmin > lmax` (3 > 1), yet construction SUCCEEDS because that bin is
dropped by the quadrupole filter before `_derive_ext` checks it. -/
theorem C6_counterexample :
    (1 : ℤ) < 3 ∧
    mkBins [3, 5] [1, 5] = .ok ⟨[5], [5], 5, 5⟩ := by
  exact ⟨by decide, by rfl⟩

theorem C6_witness :
    isOkE (mkBins [3] [3, 4]) = false ∧
    isOkE (mkBins [5, 3] [5, 2]) = false :=
  ⟨(C6_bins_errors [3] [3, 4]).1 (by decide),
   (C6_bins_errors [5, 3] [5, 2]).2 3 2 (by decide) (by decide) (by decide)
     (by decide)⟩

lemma foldl_min_mem (x : ℤ) (xs : List ℤ) : xs.foldl min x ∈ x :: xs := by
  induction xs generalizing x with
  | nil => simp
  | cons y ys ih =>
    rw [List.foldl_cons]
    have h := ih (min x y)
    rcases List.mem_cons.1 h with h1 | h1
    · rcases min_choice x y with h2 | h2 <;> rw [h1, h2] <;> simp
    · simp [List.mem_cons_of_mem, h1]

lemma le_foldl_max (x : ℤ) (xs : List ℤ) :
    ∀ y ∈ x :: xs, y ≤ xs.foldl max x := by
  induction xs generalizing x with
  | nil =>
    intro y hy
    rw [List.mem_singleton] at hy
    exact hy.le
  | cons z zs ih =>
    intro y hy
    rw [List.foldl_cons]
    rcases List.mem_cons.1 hy with rfl | hy2
    · exact le_trans (le_max_left y z) (ih (max y z) _ (List.mem_cons_self _ _))
    · rcases List.mem_cons.1 hy2 with rfl | hy3
      · exact le_trans (le_max_right x y)
          (ih (max x y) _ (List.mem_cons_self _ _))
      · exact ih (max x z) y (List.mem_cons_of_mem _ hy3)

lemma binsFilter_fst (lmins lmaxs : List ℤ) :
    (binsFilter lmins lmaxs).1 =
      ((lmins.zip lmaxs).filter fun p =>
        decide (2 ≤ p.2 ∧ 2 ≤ p.1)).map Prod.fst := rfl

lemma binsFilter_snd (lmins lmaxs : List ℤ) :
    (binsFilter lmins lmaxs).2 =
      ((lmins.zip lmaxs).filter fun p =>
        decide (2 ≤ p.2 ∧ 2 ≤ p.1)).map Prod.snd := rfl

/-- C7 (amended): for equal-length bound lists with `lmin ≤ lmax`
elementwise, construction succeeds PROVIDED at least one entry survives
the `lmin ≥ 2 ∧ lmax ≥ 2` filter (with no surviving entry, Python's
`min` of an empty sequence raises); it drops exactly the entries with
`lmax < 2` or `lmin < 2`, and `nbins` is the number of retained entries.
-/
theorem C7_bins_success (lmins lmaxs : List ℤ)
    (hlen : lmins.length = lmaxs.length)
    (hle : ∀ a z : ℤ, (a, z) ∈ lmins.zip lmaxs → a ≤ z)
    (hex : ∃ a z : ℤ, (a, z) ∈ lmins.zip lmaxs ∧ 2 ≤ a ∧ 2 ≤ z) :
    mkBins lmins lmaxs = .ok (binsVal lmins lmaxs) ∧
    (binsVal lmins lmaxs).nbins =
      ((lmins.zip lmaxs).filter
        (fun p => decide (2 ≤ p.2 ∧ 2 ≤ p.1))).length := by
  have hkept_le : ∀ p ∈ (lmins.zip lmaxs).filter
      (fun p => decide (2 ≤ p.2 ∧ 2 ≤ p.1)), p.1 ≤ p.2 := by
    intro p hp
    exact hle p.1 p.2 (by simpa using (List.mem_filter.1 hp).1)
  have hkept_2 : ∀ p ∈ (lmins.zip lmaxs).filter
      (fun p => decide (2 ≤ p.2 ∧ 2 ≤ p.1)), 2 ≤ p.1 ∧ 2 ≤ p.2 := by
    intro p hp
    have h2 := (List.mem_filter.1 hp).2
    simp at h2
    exact ⟨h2.2, h2.1⟩
  obtain ⟨a, z, hmem, ha, hz⟩ := hex
  have hkept : (a, z) ∈ (lmins.zip lmaxs).filter
      (fun p => decide (2 ≤ p.2 ∧ 2 ≤ p.1)) :=
    List.mem_filter.2 ⟨hmem, by simp [ha, hz]⟩
  have hne1 : (binsFilter lmins lmaxs).1 ≠ [] := by
    rw [binsFilter_fst]
    intro hnil
    rw [List.map_eq_nil_iff] at hnil
    rw [hnil] at hkept
    cases hkept
  have hne2 : (binsFilter lmins lmaxs).2 ≠ [] := by
    rw [binsFilter_snd]
    intro hnil
    rw [List.map_eq_nil_iff] at hnil
    rw [hnil] at hkept
    cases hkept
  have hany : (((binsFilter lmins lmaxs).1).zip
      ((binsFilter lmins lmaxs).2)).any
        (fun p => decide (p.2 < p.1)) = false := by
    rw [binsFilter_zip, List.any_eq_false]
    intro p hp
    simpa using not_lt.2 (hkept_le p hp)
  obtain ⟨x1, xs1, he1⟩ := List.exists_cons_of_ne_nil hne1
  obtain ⟨x2, xs2, he2⟩ := List.exists_cons_of_ne_nil hne2
  have hmin2 : pyMin (binsFilter lmins lmaxs).1 =
      some (xs1.foldl min x1) := by rw [he1]; rfl
  have hmax2 : pyMax (binsFilter lmins lmaxs).2 =
      some (xs2.foldl max x2) := by rw [he2]; rfl
  have hgetD1 : (pyMin (binsFilter lmins lmaxs).1).getD 0 =
      xs1.foldl min x1 := by rw [hmin2]; rfl
  have hgetD2 : (pyMax (binsFilter lmins lmaxs).2).getD 0 =
      xs2.foldl max x2 := by rw [hmax2]; rfl
  have hlo_mem : xs1.foldl min x1 ∈ (binsFilter lmins lmaxs).1 := by
    rw [he1]
    exact foldl_min_mem x1 xs1
  have hlo_pair : ∃ p ∈ (lmins.zip lmaxs).filter
      (fun p => decide (2 ≤ p.2 ∧ 2 ≤ p.1)),
      Prod.fst p = xs1.foldl min x1 := by
    rw [binsFilter_fst] at hlo_mem
    exact List.mem_map.1 hlo_mem
  have hlo_2 : 2 ≤ xs1.foldl min x1 := by
    obtain ⟨p, hp, hp1⟩ := hlo_pair
    exact hp1 ▸ (hkept_2 p hp).1
  have hhi_ge : ∀ y ∈ (binsFilter lmins lmaxs).2,
      y ≤ xs2.foldl max x2 := by
    intro y hy
    rw [he2] at hy
    exact le_foldl_max x2 xs2 y hy
  have hlohi : xs1.foldl min x1 ≤ xs2.foldl max x2 := by
    obtain ⟨p, hp, hp1⟩ := hlo_pair
    have hsnd : p.2 ∈ (binsFilter lmins lmaxs).2 := by
      rw [binsFilter_snd]
      exact List.mem_map.2 ⟨p, hp, rfl⟩
    calc xs1.foldl min x1 = p.1 := hp1.symm
      _ ≤ p.2 := hkept_le p hp
      _ ≤ xs2.foldl max x2 := hhi_ge p.2 hsnd
  have hde : deriveExt (binsFilter lmins lmaxs).1 (binsFilter lmins lmaxs).2 =
      .ok (xs1.foldl min x1, xs2.foldl max x2) := by
    rw [deriveExt, if_neg (by rw [hany]; exact Bool.false_ne_true)]
    simp only [hmin2, hmax2]
    rw [if_neg (not_lt.2 (le_trans one_le_two hlo_2)),
      if_neg (not_lt.2 hlohi)]
  constructor
  · simp only [mkBins]
    rw [if_neg (show ¬lmins.length ≠ lmaxs.length from fun h => h hlen)]
    simp only [hde, binsVal, hgetD1, hgetD2]
  · simp [binsVal, Bins.nbins, binsFilter]

/-- C7 counterexample: `lmins = lmaxs = [1]` has equal lengths and
`lmin ≤ lmax` elementwise, yet construction FAILS: the only bin is
dropped by the quadrupole filter and Python's `min` then raises on the
empty sequence. -/
theorem C7_counterexample :
    ([(1 : ℤ)]).length = ([(1 : ℤ)]).length ∧
    (∀ a z : ℤ, (a, z) ∈ ([(1 : ℤ)]).zip [(1 : ℤ)] → a ≤ z) ∧
    mkBins [(1 : ℤ)] [(1 : ℤ)] =
      .error "min() arg is an empty sequence" := by
  refine ⟨rfl, ?_, by rfl⟩
  intro a z h
  simp at h
  omega

theorem C7_witness :
    mkBins [1, 2] [1, 5] = .ok (binsVal [1, 2] [1, 5]) ∧
    (binsVal [1, 2] [1, 5]).nbins = 1 :=
  C7_bins_success [1, 2] [1, 5] (by decide)
    (by intro a z h; simp at h; omega)
    ⟨2, 5, by decide, by decide, by decide⟩

/-!
## C8: binning a constant spectrum
-/

lemma pyMax_le (l : List ℤ) (hi : ℤ) (h : pyMax l = some hi) :
    ∀ y ∈ l, y ≤ hi := by
  cases l with
  | nil => cases h
  | cons x xs =>
    intro y hy
    have hfold : xs.foldl max x = hi := by
      have := h
      rw [pyMax] at this
      exact Option.some.inj this
    exact hfold ▸ le_foldl_max x xs y hy

lemma deriveExt_ok (lmins lmaxs : List ℤ) (lo hi : ℤ)
    (h : deriveExt lmins lmaxs = .ok (lo, hi)) :
    (∀ p ∈ lmins.zip lmaxs, ¬(p.2 < p.1)) ∧
    pyMin lmins = some lo ∧ pyMax lmaxs = some hi ∧ 1 ≤ lo ∧ lo ≤ hi := by
  rw [deriveExt] at h
  split at h
  · cases h
  case isFalse hany =>
    have hnobad : ∀ p ∈ lmins.zip lmaxs, ¬(p.2 < p.1) := by
      intro p hp hbad
      exact hany (List.any_eq_true.2 ⟨p, hp, by simpa using hbad⟩)
    split at h
    case h_2 => cases h
    case h_1 lo2 hi2 hminEq hmaxEq =>
      split at h
      · cases h
      · split at h
        · cases h
        · cases h
          exact ⟨hnobad, hminEq, hmaxEq, by omega, by omega⟩

lemma mkBins_ok_spec (lmins lmaxs : List ℤ) (b : Bins)
    (hb : mkBins lmins lmaxs = .ok b) :
    b.lmins.length = b.lmaxs.length ∧
    (∀ p ∈ b.lmins.zip b.lmaxs, 2 ≤ p.1 ∧ 2 ≤ p.2 ∧ p.1 ≤ p.2) ∧
    (∀ z ∈ b.lmaxs, z ≤ b.lmax) ∧ 1 ≤ b.lmin ∧ b.lmin ≤ b.lmax := by
  simp only [mkBins] at hb
  split at hb
  · cases hb
  · split at hb
    case h_1 e heq => cases hb
    case h_2 lohi heq =>
      cases hb
      obtain ⟨ha_nobad, hminEq, hmaxEq, hlo1, hlohi⟩ :=
        deriveExt_ok _ _ lohi.1 lohi.2 (by rw [heq])
      refine ⟨?_, ?_, ?_, hlo1, hlohi⟩
      · rw [binsFilter_fst, binsFilter_snd]
        simp
      · intro p hp
        have hpk := hp
        rw [binsFilter_zip] at hpk
        obtain ⟨hpz, hp2⟩ := List.mem_filter.1 hpk
        simp at hp2
        exact ⟨hp2.2, hp2.1, not_lt.1 (ha_nobad p hp)⟩
      · exact pyMax_le _ _ hmaxEq

lemma binP_sum_const (b : Bins) (i : ℕ) (c : ℚ) (N : ℕ) (a z : ℤ)
    (ha : b.lmins[i]? = some a) (hz : b.lmaxs[i]? = some z)
    (h2a : 2 ≤ a) (haz : a ≤ z) (hzN : z.toNat < N) :
    ∑ ℓ ∈ Finset.range N,
      (List.replicate N c).getD ℓ 0 * binP b i (ℓ : ℤ) = c := by
  have hgd : ∀ ℓ ∈ Finset.range N, (List.replicate N c).getD ℓ 0 = c := by
    intro ℓ hℓ
    rw [Finset.mem_range] at hℓ
    rw [List.getD_eq_getElem?_getD, List.getElem?_replicate, if_pos hℓ]
    rfl
  have hbp : ∀ ℓ : ℕ, binP b i (ℓ : ℤ) =
      if a ≤ (ℓ : ℤ) ∧ (ℓ : ℤ) ≤ z then 1 / ((z - a + 1 : ℤ) : ℚ)
      else 0 := by
    intro ℓ
    rw [binP, List.get?_eq_getElem?, List.get?_eq_getElem?, ha, hz]
  rw [Finset.sum_congr rfl (fun ℓ hℓ => by rw [hgd ℓ hℓ, hbp ℓ])]
  rw [← Finset.mul_sum, ← Finset.sum_filter]
  have hcount : (Finset.range N).filter
      (fun ℓ : ℕ => a ≤ (ℓ : ℤ) ∧ (ℓ : ℤ) ≤ z) =
      Finset.Icc a.toNat z.toNat := by
    ext ℓ
    simp only [Finset.mem_filter, Finset.mem_range, Finset.mem_Icc]
    omega
  rw [hcount, Finset.sum_const, Nat.card_Icc, nsmul_eq_mul]
  have hd0 : ((z - a + 1 : ℤ) : ℚ) ≠ 0 := by
    rw [Int.cast_ne_zero]
    omega
  have hcast : ((z.toNat + 1 - a.toNat : ℕ) : ℚ) = ((z - a + 1 : ℤ) : ℚ) := by
    have h1 : ((z.toNat + 1 - a.toNat : ℕ) : ℤ) = z - a + 1 := by omega
    calc ((z.toNat + 1 - a.toNat : ℕ) : ℚ)
        = (((z.toNat + 1 - a.toNat : ℕ) : ℤ) : ℚ) := by push_cast; ring
      _ = ((z - a + 1 : ℤ) : ℚ) := by rw [h1]
  rw [hcast, mul_one_div, div_self hd0, mul_one]

/-- C8: for every successfully constructed `Bins` and every constant
spectrum with value `c` on `ℓ ∈ [0, lmax]`, `bin_spectra` with uniform
weighting returns `c` in every bin (each forward-operator row sums
to 1). -/
theorem C8_constant_binning (lmins lmaxs : List ℤ) (b : Bins)
    (hb : mkBins lmins lmaxs = .ok b) (c : ℚ) :
    bin_spectra b (List.replicate (b.lmax.toNat + 1) c) =
      List.replicate b.nbins c := by
  obtain ⟨hlen, hpairs, hzmax, hlo1, hlohi⟩ := mkBins_ok_spec lmins lmaxs b hb
  have hminl : min ((((List.replicate (b.lmax.toNat + 1) c).length : ℤ)) - 1)
      b.lmax = b.lmax := by
    rw [List.length_replicate]
    have : ((b.lmax.toNat + 1 : ℕ) : ℤ) - 1 = b.lmax := by omega
    rw [this, min_self]
  have hlenspec : (bin_spectra b (List.replicate (b.lmax.toNat + 1) c)).length
      = b.nbins := by
    simp [bin_spectra]
  rw [List.eq_replicate_iff]
  refine ⟨hlenspec, ?_⟩
  intro x hx
  simp only [bin_spectra, hminl] at hx
  obtain ⟨i, hi, rfl⟩ := List.mem_map.1 hx
  rw [List.mem_range] at hi
  have hia : i < b.lmins.length := hi
  have hiz : i < b.lmaxs.length := by rw [← hlen]; exact hi
  have ha : b.lmins[i]? = some b.lmins[i] := List.getElem?_eq_getElem hia
  have hz : b.lmaxs[i]? = some b.lmaxs[i] := List.getElem?_eq_getElem hiz
  have hizip : i < (b.lmins.zip b.lmaxs).length := by
    rw [List.length_zip]
    omega
  have hpair : (b.lmins[i], b.lmaxs[i]) ∈ b.lmins.zip b.lmaxs := by
    have hmem := List.getElem_mem hizip
    rwa [List.getElem_zip] at hmem
  obtain ⟨h2a, h2z, hazle⟩ := hpairs _ hpair
  have hzle : b.lmaxs[i] ≤ b.lmax := hzmax _ (List.getElem_mem hiz)
  exact binP_sum_const b i c (b.lmax.toNat + 1) _ _ ha hz h2a hazle
    (by omega)

theorem C8_witness :
    mkBins [2, 5] [4, 9] = .ok ⟨[2, 5], [4, 9], 2, 9⟩ ∧
    bin_spectra ⟨[2, 5], [4, 9], 2, 9⟩ (List.replicate 10 (7 : ℚ)) =
      List.replicate 2 (7 : ℚ) := by
  have hb : mkBins [2, 5] [4, 9] = .ok ⟨[2, 5], [4, 9], 2, 9⟩ := by rfl
  exact ⟨hb, C8_constant_binning [2, 5] [4, 9] ⟨[2, 5], [4, 9], 2, 9⟩ hb 7⟩
